import Mathlib

/-!
Verification of the rename-to-avoid-collision core algorithm.

The Python source (rename_to_avoid_collision/core.py and cli.py) is shallowly
embedded: file contents are lists of byte values (List Nat), filenames are
lists of characters, the filesystem is an association list from paths to
contents, and the unbounded while loop of the resolver is modelled with an
explicit fuel argument (a result of none means the fuel was exhausted).
The secondary hash used by same_bytes (hashlib.sha256) and the primary
digest (blake3) are external libraries, so they appear as function
parameters of the embedding.
-/

set_option maxHeartbeats 1000000

/-- Byte strings: each entry is one byte value. -/
abbrev Bytes := List Nat

/-- The character class of the tag regex, [A-Za-z0-9_-]. -/
def isTagChar (c : Char) : Bool :=
  ('A' ≤ c && c ≤ 'Z') || ('a' ≤ c && c ≤ 'z') || ('0' ≤ c && c ≤ '9') ||
    c == '_' || c == '-'

/-- The base64url alphabet, in value order 0..63. -/
def b64alphabet : List Char :=
  "ABCDEFGHIJKLMNOPQRSTUVWXYZabcdefghijklmnopqrstuvwxyz0123456789-_".toList

/-- Character for a 6-bit value. -/
def b64alpha (k : Nat) : Char := b64alphabet.getD k 'A'

/-- base64.urlsafe_b64encode with the trailing padding stripped
(core.py, b64url_no_pad): bytes are consumed in groups of three, a final
group of one byte yields two characters and a final group of two bytes
yields three. -/
def b64url_no_pad : Bytes → List Char
  | [] => []
  | [b1] => [b64alpha (b1 / 4), b64alpha (b1 % 4 * 16)]
  | [b1, b2] =>
      [b64alpha (b1 / 4), b64alpha (b1 % 4 * 16 + b2 / 16), b64alpha (b2 % 16 * 4)]
  | b1 :: b2 :: b3 :: rest =>
      b64alpha (b1 / 4) :: b64alpha (b1 % 4 * 16 + b2 / 16) ::
        b64alpha (b2 % 16 * 4 + b3 / 64) :: b64alpha (b3 % 64) :: b64url_no_pad rest

/-- core.py, suffix_from_digest: take the first ceil(3*n/4) bytes of the
digest, base64url-encode without padding, truncate to n characters. -/
def suffix_from_digest (digest : Bytes) (n_chars : Nat) : List Char :=
  (b64url_no_pad (digest.take ((3 * n_chars + 3) / 4))).take n_chars

/-- Ceiling division, used to phrase the spec text for the byte count. -/
def ceil_div (a b : Nat) : Nat := (a + b - 1) / b

/-- The suffix encoder as the spec words it in section 4.2. -/
def suffix_spec (digest : Bytes) (n_chars : Nat) : List Char :=
  (b64url_no_pad (digest.take (ceil_div (3 * n_chars) 4))).take n_chars

theorem b64url_no_pad_length (b : Bytes) :
    (b64url_no_pad b).length = (4 * b.length + 2) / 3 := by
  induction b using b64url_no_pad.induct with
  | case1 => rfl
  | case2 b1 => simp [b64url_no_pad]
  | case3 b1 b2 => simp [b64url_no_pad]
  | case4 b1 b2 b3 rest ih =>
      simp only [b64url_no_pad, List.length_cons, List.length, ih]
      omega

theorem b64alpha_isTagChar (k : Nat) : isTagChar (b64alpha k) = true := by
  have halpha : b64alphabet.all isTagChar = true := by decide
  by_cases h : k < b64alphabet.length
  · have hm : b64alpha k ∈ b64alphabet := by
      unfold b64alpha
      rw [List.getD_eq_getElem b64alphabet 'A' h]
      exact List.getElem_mem h
    exact List.all_eq_true.mp halpha _ hm
  · unfold b64alpha
    rw [List.getD_eq_default b64alphabet 'A' (Nat.le_of_not_lt h)]
    decide

theorem b64url_no_pad_all_tag (b : Bytes) :
    (b64url_no_pad b).all isTagChar = true := by
  induction b using b64url_no_pad.induct with
  | case1 => rfl
  | case2 b1 => simp [b64url_no_pad, b64alpha_isTagChar]
  | case3 b1 b2 => simp [b64url_no_pad, b64alpha_isTagChar]
  | case4 b1 b2 b3 rest ih =>
      simp [b64url_no_pad, b64alpha_isTagChar, ih]

theorem suffix_from_digest_all_tag (d : Bytes) (n : Nat) :
    (suffix_from_digest d n).all isTagChar = true := by
  have h := b64url_no_pad_all_tag (d.take ((3 * n + 3) / 4))
  rw [List.all_eq_true] at h ⊢
  intro c hc
  exact h c (List.take_subset _ _ hc)

theorem suffix_from_digest_length (d : Bytes) (n : Nat)
    (h : (3 * n + 3) / 4 ≤ d.length) :
    (suffix_from_digest d n).length = n := by
  simp only [suffix_from_digest, List.length_take, b64url_no_pad_length]
  omega

theorem suffix_from_digest_length32 (d : Bytes) (n : Nat) (h : d.length = 32) :
    (suffix_from_digest d n).length = min n 43 := by
  simp only [suffix_from_digest, List.length_take, b64url_no_pad_length, h]
  omega

theorem suffix_from_digest_stable (d : Bytes) (n : Nat) (h : d.length = 32)
    (hn : 43 ≤ n) : suffix_from_digest d n = b64url_no_pad d := by
  unfold suffix_from_digest
  rw [List.take_of_length_le (by omega : d.length ≤ (3 * n + 3) / 4)]
  exact List.take_of_length_le (by rw [b64url_no_pad_length, h]; omega)

/-! ## The SUFFIX_RE regex and parse_suffix -/

/-- Greatest index at or below the bound where the predicate holds; this is
the backtracking search of the greedy dot-star group in the regex. -/
def findLastSplit (p : Nat → Bool) : Nat → Option Nat
  | 0 => if p 0 then some 0 else none
  | n + 1 => if p (n + 1) then some (n + 1) else findLastSplit p n

/-- One candidate split of SUFFIX_RE at stem length i: after the candidate
stem come two underscores and then at least four tag characters running to
the end; the dot-star group cannot contain a newline. -/
def matchAt (t : List Char) (i : Nat) : Bool :=
  match t.drop i with
  | c1 :: c2 :: rest =>
      c1 == '_' && c2 == '_' && rest.all isTagChar && decide (4 ≤ rest.length)
        && !(t.take i).contains '\n'
  | _ => false

/-- re.match of SUFFIX_RE (core.py line 11) on a stem, returning the length
of the greedy stem group when the regex matches.  The dollar anchor in
Python also matches just before a single final newline, hence the dropLast
adjustment. -/
def SUFFIX_RE_match (s : List Char) : Option Nat :=
  let t := if s.getLast? = some '\n' then s.dropLast else s
  findLastSplit (matchAt t) t.length

/-- core.py, parse_suffix: the stem group of the regex match together with
the slice of the original stem after that group and the two underscores. -/
def parse_suffix (stem : List Char) : Option (List Char × List Char) :=
  match SUFFIX_RE_match stem with
  | none => none
  | some i => some (stem.take i, stem.drop (i + 2))

/-- A tag is safe for round-tripping: it does not begin with an underscore
leaving four or more characters behind, and no two consecutive underscores
inside it leave four or more characters behind. -/
def tag_safe (tag : List Char) : Prop :=
  (tag.getD 0 ' ' = '_' → tag.length - 1 < 4) ∧
  ∀ i, i < tag.length → tag.getD i ' ' = '_' → tag.getD (i + 1) ' ' = '_' →
    tag.length - (i + 2) < 4

instance tag_safe_decidable (tag : List Char) : Decidable (tag_safe tag) := by
  unfold tag_safe; infer_instance

theorem findLastSplit_isSome (p : Nat → Bool) (N i : Nat) (hi : i ≤ N)
    (hp : p i = true) : (findLastSplit p N).isSome = true := by
  induction N with
  | zero =>
      have : i = 0 := by omega
      subst this
      simp [findLastSplit, hp]
  | succ n ih =>
      by_cases h : p (n + 1) = true
      · simp [findLastSplit, h]
      · rcases Nat.lt_or_ge i (n + 1) with h2 | h2
        · simp only [findLastSplit]
          rw [if_neg (by simp [h])]
          exact ih (by omega)
        · have : i = n + 1 := by omega
          subst this
          exact absurd hp h

theorem findLastSplit_eq (p : Nat → Bool) (N i : Nat) (hi : i ≤ N)
    (hp : p i = true) (hmax : ∀ j, i < j → j ≤ N → p j = false) :
    findLastSplit p N = some i := by
  induction N with
  | zero =>
      have : i = 0 := by omega
      subst this
      simp [findLastSplit, hp]
  | succ n ih =>
      rcases Nat.lt_or_ge i (n + 1) with h2 | h2
      · have hn1 : p (n + 1) = false := hmax _ h2 (Nat.le_refl _)
        simp only [findLastSplit]
        rw [if_neg (by simp [hn1])]
        exact ih (by omega) (fun j hj hjn => hmax j hj (by omega))
      · have : i = n + 1 := by omega
        subst this
        simp [findLastSplit, hp]

theorem findLastSplit_sound (p : Nat → Bool) (N i : Nat)
    (h : findLastSplit p N = some i) :
    i ≤ N ∧ p i = true ∧ ∀ j, i < j → j ≤ N → p j = false := by
  induction N with
  | zero =>
      by_cases h0 : p 0 = true
      · simp [findLastSplit, h0] at h
        subst h
        exact ⟨Nat.le_refl _, h0, fun j hj hjn => by omega⟩
      · simp [findLastSplit, h0] at h
  | succ n ih =>
      by_cases h1 : p (n + 1) = true
      · simp [findLastSplit, h1] at h
        subst h
        exact ⟨Nat.le_refl _, h1, fun j hj hjn => by omega⟩
      · simp only [findLastSplit] at h
        rw [if_neg (by simp [h1])] at h
        obtain ⟨ha, hb, hc⟩ := ih h
        refine ⟨by omega, hb, fun j hj hjn => ?_⟩
        rcases Nat.lt_or_ge j (n + 1) with hj2 | hj2
        · exact hc j hj (by omega)
        · have : j = n + 1 := by omega
          subst this
          exact Bool.eq_false_iff.mpr h1

theorem findLastSplit_none (p : Nat → Bool) (N : Nat)
    (h : ∀ j, j ≤ N → p j = false) : findLastSplit p N = none := by
  induction N with
  | zero => simp [findLastSplit, h 0 (Nat.le_refl _)]
  | succ n ih =>
      simp only [findLastSplit]
      rw [if_neg (by simp [h (n + 1) (Nat.le_refl _)])]
      exact ih (fun j hj => h j (by omega))

theorem drop_append_add (l1 l2 : List Char) (m : Nat) :
    (l1 ++ l2).drop (l1.length + m) = l2.drop m := by
  induction l1 with
  | nil => simp
  | cons a l ih =>
      have hlen : (a :: l).length + m = (l.length + m) + 1 := by
        simp [List.length_cons]; omega
      rw [List.cons_append, hlen, List.drop_succ_cons, ih]

theorem getD_of_drop (l : List Char) (m : Nat) (a : Char) (r : List Char)
    (d : Char) (h : l.drop m = a :: r) : l.getD m d = a := by
  induction l generalizing m with
  | nil => simp at h
  | cons x xs ih =>
      cases m with
      | zero =>
          simp only [List.drop_zero] at h
          rw [List.getD_cons_zero]
          exact (List.cons.injEq _ _ _ _ ▸ h).1
      | succ m =>
          rw [List.drop_succ_cons] at h
          rw [List.getD_cons_succ]
          exact ih m h

theorem mem_of_getLast?_eq (l : List Char) (a : Char)
    (h : l.getLast? = some a) : a ∈ l := by
  induction l with
  | nil => simp at h
  | cons x xs ih =>
      cases xs with
      | nil =>
          simp [List.getLast?] at h
          simp [h]
      | cons y ys =>
          rw [List.getLast?_cons_cons] at h
          exact List.mem_cons_of_mem _ (ih h)

theorem matchAt_self (st tag : List Char) (h1 : ¬ '\n' ∈ st)
    (h2 : tag.all isTagChar = true) (h3 : 4 ≤ tag.length) :
    matchAt (st ++ '_' :: '_' :: tag) st.length = true := by
  unfold matchAt
  rw [List.drop_left, List.take_left]
  simp [h2, h3, h1]

theorem matchAt_later_false (st tag : List Char) (h4 : tag_safe tag)
    (j : Nat) (hj : st.length < j) :
    matchAt (st ++ '_' :: '_' :: tag) j = false := by
  obtain ⟨hsafe1, hsafe2⟩ := h4
  have hdrop0 := drop_append_add st ('_' :: '_' :: tag) (j - st.length)
  rw [show st.length + (j - st.length) = j by omega] at hdrop0
  have hk : 1 ≤ j - st.length := by omega
  cases hkk : j - st.length with
  | zero => omega
  | succ k =>
      rw [hkk, List.drop_succ_cons] at hdrop0
      cases k with
      | zero =>
          simp only [List.drop_zero] at hdrop0
          unfold matchAt
          rw [hdrop0]
          cases tag with
          | nil => rfl
          | cons c rest =>
              by_cases hc : c = '_'
              · subst hc
                have hlen : ¬ (4 ≤ rest.length) := by
                  have := hsafe1 (by rw [List.getD_cons_zero])
                  simp only [List.length_cons] at this
                  omega
                simp [hlen]
              · simp [hc]
      | succ m =>
          rw [List.drop_succ_cons] at hdrop0
          unfold matchAt
          rw [hdrop0]
          cases htag : tag.drop m with
          | nil => rfl
          | cons c1 tl =>
              cases tl with
              | nil => rfl
              | cons c2 rest =>
                  by_cases hc1 : c1 = '_'
                  · by_cases hc2 : c2 = '_'
                    · subst hc1; subst hc2
                      have hmlt : m < tag.length := by
                        by_contra hge
                        rw [List.drop_eq_nil_of_le (by omega)] at htag
                        exact List.noConfusion htag
                      have hg1 : tag.getD m ' ' = '_' := getD_of_drop _ _ _ _ _ htag
                      have hg2 : tag.getD (m + 1) ' ' = '_' := by
                        have htail : tag.drop (m + 1) = '_' :: rest := by
                          rw [← List.tail_drop, htag]; rfl
                        exact getD_of_drop _ _ _ _ _ htail
                      have hlen2 : rest.length + 2 = tag.length - m := by
                        have := congrArg List.length htag
                        simp only [List.length_drop, List.length_cons] at this
                        omega
                      have hrest : ¬ (4 ≤ rest.length) := by
                        have := hsafe2 m hmlt hg1 hg2
                        omega
                      simp [hrest]
                    · simp [hc2]
                  · simp [hc1]

theorem parse_suffix_roundtrip (st tag : List Char) (h1 : ¬ '\n' ∈ st)
    (h2 : tag.all isTagChar = true) (h3 : 4 ≤ tag.length) (h4 : tag_safe tag) :
    parse_suffix (st ++ '_' :: '_' :: tag) = some (st, tag) := by
  have hnl_tag : ¬ '\n' ∈ tag := by
    intro hmem
    have := List.all_eq_true.mp h2 _ hmem
    simp [isTagChar] at this
  have hlast : ¬ (st ++ '_' :: '_' :: tag).getLast? = some '\n' := by
    intro h
    rcases List.mem_append.mp (mem_of_getLast?_eq _ _ h) with hh | hh
    · exact h1 hh
    · simp only [List.mem_cons] at hh
      rcases hh with hh | hh | hh
      · exact absurd hh (by decide)
      · exact absurd hh (by decide)
      · exact hnl_tag hh
  unfold parse_suffix SUFFIX_RE_match
  simp only [if_neg hlast]
  have hfind : findLastSplit (matchAt (st ++ '_' :: '_' :: tag))
      (st ++ '_' :: '_' :: tag).length = some st.length := by
    refine findLastSplit_eq _ _ _ ?_ (matchAt_self st tag h1 h2 h3) ?_
    · simp only [List.length_append, List.length_cons]; omega
    · exact fun j hj _ => matchAt_later_false st tag h4 j hj
  rw [hfind]
  have hdrop : (st ++ '_' :: '_' :: tag).drop (st.length + 2) = tag := by
    have h22 := drop_append_add st ('_' :: '_' :: tag) 2
    rw [List.drop_succ_cons, List.drop_succ_cons, List.drop_zero] at h22
    exact h22
  show some ((st ++ '_' :: '_' :: tag).take st.length,
      (st ++ '_' :: '_' :: tag).drop (st.length + 2)) = some (st, tag)
  rw [List.take_left, hdrop]

theorem SUFFIX_RE_match_isSome_of (stem st0 tag : List Char)
    (hdec : stem = st0 ++ '_' :: '_' :: tag) (hnl : ¬ '\n' ∈ stem)
    (h2 : tag.all isTagChar = true) (h3 : 4 ≤ tag.length) :
    (SUFFIX_RE_match stem).isSome = true := by
  subst hdec
  have h1 : ¬ '\n' ∈ st0 := fun h => hnl (List.mem_append.mpr (Or.inl h))
  have hlast : ¬ (st0 ++ '_' :: '_' :: tag).getLast? = some '\n' := by
    intro h
    exact hnl (mem_of_getLast?_eq _ _ h)
  unfold SUFFIX_RE_match
  simp only [if_neg hlast]
  exact findLastSplit_isSome _ _ st0.length
    (by simp only [List.length_append, List.length_cons]; omega)
    (matchAt_self st0 tag h1 h2 h3)

/-! ## Paths: pathlib stem and suffix on the name component -/

/-- A filesystem path: directory part and final name component. -/
structure P where
  dir : List Char
  name : List Char
deriving DecidableEq

/-- Path.with_name: replace the final component. -/
def withName (p : P) (n : List Char) : P := ⟨p.dir, n⟩

/-- str.rfind of a dot: index of the last dot of the name, if any. -/
def lastDotIdx (name : List Char) : Option Nat :=
  findLastSplit (fun i => name.getD i ' ' == '.') name.length

/-- pathlib PurePath.stem: the name without its extension; the extension
only exists when the last dot is neither the first nor the last character. -/
def pyStem (name : List Char) : List Char :=
  match lastDotIdx name with
  | some i => if 0 < i ∧ i + 1 < name.length then name.take i else name
  | none => name

/-- pathlib PurePath.suffix: the extension including its dot, or empty. -/
def pySuffix (name : List Char) : List Char :=
  match lastDotIdx name with
  | some i => if 0 < i ∧ i + 1 < name.length then name.drop i else []
  | none => []

theorem findLastSplit_none_sound (p : Nat → Bool) (N : Nat)
    (h : findLastSplit p N = none) : ∀ j, j ≤ N → p j = false := by
  induction N with
  | zero =>
      intro j hj
      have : j = 0 := by omega
      subst this
      by_cases h0 : p 0 = true
      · simp [findLastSplit, h0] at h
      · exact Bool.eq_false_iff.mpr h0
  | succ n ih =>
      intro j hj
      by_cases h1 : p (n + 1) = true
      · simp [findLastSplit, h1] at h
      · simp only [findLastSplit] at h
        rw [if_neg (by simp [h1])] at h
        rcases Nat.lt_or_ge j (n + 1) with hj2 | hj2
        · exact ih h j (by omega)
        · have : j = n + 1 := by omega
          subst this
          exact Bool.eq_false_iff.mpr h1

theorem drop_eq_getD_cons (l : List Char) (m : Nat) (h : m < l.length) :
    l.drop m = l.getD m ' ' :: l.drop (m + 1) := by
  induction l generalizing m with
  | nil => simp at h
  | cons x xs ih =>
      cases m with
      | zero => simp [List.getD_cons_zero]
      | succ m =>
          rw [List.drop_succ_cons, List.getD_cons_succ, List.drop_succ_cons]
          exact ih m (by simp at h; omega)

theorem getD_drop (l : List Char) (a b : Nat) (d : Char) :
    (l.drop a).getD b d = l.getD (a + b) d := by
  induction l generalizing a with
  | nil => simp
  | cons x xs ih =>
      cases a with
      | zero => simp
      | succ a =>
          rw [List.drop_succ_cons, show a + 1 + b = (a + b) + 1 by omega,
            List.getD_cons_succ]
          exact ih a

theorem getLast?_eq_getD (l : List Char) (h : l ≠ []) :
    l.getLast? = some (l.getD (l.length - 1) ' ') := by
  induction l with
  | nil => exact absurd rfl h
  | cons x xs ih =>
      cases xs with
      | nil => rfl
      | cons y ys =>
          rw [List.getLast?_cons_cons, ih (by simp)]
          have hlen : (x :: y :: ys).length - 1 = ((y :: ys).length - 1) + 1 := by
            simp only [List.length_cons]
            omega
          rw [hlen, List.getD_cons_succ]

theorem isTagChar_ne_dot (c : Char) (h : isTagChar c = true) : ¬ c = '.' := by
  intro he
  subst he
  exact absurd h (by decide)

theorem isTagChar_ne_nl (c : Char) (h : isTagChar c = true) : ¬ c = '\n' := by
  intro he
  subst he
  exact absurd h (by decide)

theorem getD_all_ne_dot (l : List Char) (m : Nat)
    (hall : l.all isTagChar = true) : ¬ l.getD m ' ' = '.' := by
  by_cases hm : m < l.length
  · rw [List.getD_eq_getElem l ' ' hm]
    exact isTagChar_ne_dot _ (List.all_eq_true.mp hall _ (List.getElem_mem hm))
  · rw [List.getD_eq_default l ' ' (by omega)]
    decide

/-- Appending two underscores, a nonempty run of tag characters and the
original extension to a stem produces a name whose pathlib stem is the old
stem followed by the two underscores and the tag run, as long as the
original name does not end in a dot. -/
theorem pyStem_recompose (name sfx : List Char)
    (hall : sfx.all isTagChar = true) (hdot : ¬ name.getLast? = some '.') :
    pyStem (pyStem name ++ '_' :: '_' :: (sfx ++ pySuffix name))
      = pyStem name ++ '_' :: '_' :: sfx := by
  have hsfx_ne : ∀ m, ¬ sfx.getD m ' ' = '.' := fun m => getD_all_ne_dot sfx m hall
  have hund : ∀ j : Nat, ¬ ('_' :: '_' :: sfx).getD j ' ' = '.' := by
    intro j
    match j with
    | 0 => rw [List.getD_cons_zero]; decide
    | 1 => rw [List.getD_cons_succ, List.getD_cons_zero]; decide
    | (m + 2) =>
        rw [List.getD_cons_succ, List.getD_cons_succ]
        exact hsfx_ne m
  cases hidx : lastDotIdx name with
  | some i =>
      obtain ⟨hiN, hpi, hmax⟩ := findLastSplit_sound _ _ _ hidx
      have hdoti : name.getD i ' ' = '.' := by
        have := hpi
        simpa using this
      have hilt : i < name.length := by
        rcases Nat.lt_or_ge i name.length with h | h
        · exact h
        · exact absurd (List.getD_eq_default name ' ' h ▸ hdoti) (by decide)
      have hnotend : ¬ i + 1 = name.length := by
        intro he
        apply hdot
        rw [getLast?_eq_getD name (by intro hn; rw [hn] at hilt; simp at hilt)]
        rw [show name.length - 1 = i by omega, hdoti]
      by_cases hcond : 0 < i ∧ i + 1 < name.length
      · -- a real extension: the new last dot sits right after the tag run
        have hstem : pyStem name = name.take i := by
          simp only [pyStem, hidx]
          rw [if_pos hcond]
        have hext : pySuffix name = name.drop i := by
          simp only [pySuffix, hidx]
          rw [if_pos hcond]
        rw [hstem, hext]
        have htklen : (name.take i).length = i := by
          rw [List.length_take]; omega
        have hflat : name.take i ++ '_' :: '_' :: (sfx ++ name.drop i)
            = (name.take i ++ '_' :: '_' :: sfx) ++ name.drop i := by
          simp [List.append_assoc]
        set L1 := name.take i ++ '_' :: '_' :: sfx with hL1
        have hL1len : L1.length = i + 2 + sfx.length := by
          simp [hL1, List.length_append, htklen, List.length_cons]
          omega
        have hexlen : (name.drop i).length = name.length - i := by
          simp [List.length_drop]
        have hdropcons : name.drop i = '.' :: name.drop (i + 1) := by
          rw [drop_eq_getD_cons name i hilt, hdoti]
        have hnew : lastDotIdx (L1 ++ name.drop i) = some L1.length := by
          unfold lastDotIdx
          apply findLastSplit_eq
          · simp only [List.length_append]; omega
          · rw [List.getD_append_right L1 _ ' ' L1.length (Nat.le_refl _),
              Nat.sub_self, hdropcons, List.getD_cons_zero]
            simp
          · intro j hj hjN
            simp only [beq_eq_false_iff_ne, ne_eq]
            rw [List.getD_append_right L1 _ ' ' j (by omega)]
            have hjm : j - L1.length = (j - L1.length - 1) + 1 := by omega
            rw [hjm, hdropcons, List.getD_cons_succ, getD_drop]
            have hgt : i < i + 1 + (j - L1.length - 1) + 1 := by omega
            rcases Nat.lt_or_ge (i + 1 + (j - L1.length - 1)) name.length with hlt | hge
            · have := hmax (i + 1 + (j - L1.length - 1)) (by omega) (by omega)
              simpa using this
            · rw [List.getD_eq_default name ' ' (by omega)]
              decide
        rw [hflat]
        simp only [pyStem, hnew]
        have hcond2 : 0 < L1.length ∧ L1.length + 1 < (L1 ++ name.drop i).length := by
          constructor
          · omega
          · simp only [List.length_append, hL1len, hexlen]
            omega
        rw [if_pos hcond2, List.take_left]
      · -- no extension on the original name: the only dot is at index 0
        have hi0 : i = 0 := by
          rcases Nat.lt_or_ge 0 i with h0 | h0
          · exact absurd ⟨h0, by omega⟩ hcond
          · omega
        subst hi0
        have hstem : pyStem name = name := by
          simp only [pyStem, hidx]
          rw [if_neg hcond]
        have hext : pySuffix name = [] := by
          simp only [pySuffix, hidx]
          rw [if_neg hcond]
        rw [hstem, hext, List.append_nil]
        have hnew : lastDotIdx (name ++ '_' :: '_' :: sfx) = some 0 := by
          unfold lastDotIdx
          apply findLastSplit_eq
          · omega
          · rw [List.getD_append name _ ' ' 0 (by omega), hdoti]
            simp
          · intro j hj hjN
            simp only [beq_eq_false_iff_ne, ne_eq]
            rcases Nat.lt_or_ge j name.length with hlt | hge
            · have := hmax j hj (by omega)
              rw [List.getD_append name _ ' ' j hlt]
              simpa using this
            · rw [List.getD_append_right name _ ' ' j hge]
              exact hund (j - name.length)
        simp only [pyStem, hnew]
        rw [if_neg (by omega)]
  | none =>
      have hnone := findLastSplit_none_sound _ _ hidx
      have hstem : pyStem name = name := by simp only [pyStem, hidx]
      have hext : pySuffix name = [] := by simp only [pySuffix, hidx]
      rw [hstem, hext, List.append_nil]
      have hnew : lastDotIdx (name ++ '_' :: '_' :: sfx) = none := by
        unfold lastDotIdx
        apply findLastSplit_none
        intro j hj
        simp only [beq_eq_false_iff_ne, ne_eq]
        rcases Nat.lt_or_ge j name.length with hlt | hge
        · have := hnone j (by omega)
          rw [List.getD_append name _ ' ' j hlt]
          simpa using this
        · rw [List.getD_append_right name _ ' ' j hge]
          exact hund (j - name.length)
      simp only [pyStem, hnew]

/-! ## Filesystem state and the append resolver -/

/-- A filesystem state: an association list from paths to byte contents. -/
abbrev FS := List (P × Bytes)

/-- Content of a path, if the file exists. -/
def fsFind (fs : FS) (p : P) : Option Bytes :=
  (fs.find? (fun e => decide (e.1 = p))).map (fun e => e.2)

/-- core.py, same_bytes: compare sizes first, then the secondary stream
hash (hashlib.sha256, embedded as the parameter sha) of both contents. -/
def same_bytes (sha : Bytes → Bytes) (fs : FS) (a b : P) : Bool :=
  match fsFind fs a, fsFind fs b with
  | some ca, some cb => decide (ca.length = cb.length) && decide (sha ca = sha cb)
  | _, _ => false

/-- The candidate destination of the append loop at suffix length n:
stem + "__" + suffix + extension, in the directory of the source. -/
def mkCand (src : P) (d : Bytes) (n : Nat) : P :=
  withName src
    (pyStem src.name ++ '_' :: '_' :: (suffix_from_digest d n ++ pySuffix src.name))

/-- The while loop of core.py propose_dst_apply, with explicit fuel: at
each length n the candidate is free (propose it), or holds identical bytes
(duplicate, skip), or the length is extended by one. -/
def proposeLoop (sha : Bytes → Bytes) (fs : FS) (src : P) (d : Bytes) :
    Nat → Nat → Option (Option P × List Char)
  | 0, _ => none
  | fuel + 1, n =>
      if fsFind fs (mkCand src d n) = none then
        some (some (mkCand src d n), suffix_from_digest d n)
      else if same_bytes sha fs src (mkCand src d n) then some (none, [])
      else proposeLoop sha fs src d fuel (n + 1)

/-- core.py, propose_dst_apply: skip when the stem already matches the tag
regex, otherwise run the suffix extension loop starting at base_chars. -/
def propose_dst_apply (sha : Bytes → Bytes) (fs : FS) (src : P) (d : Bytes)
    (base_chars fuel : Nat) : Option (Option P × List Char) :=
  if (SUFFIX_RE_match (pyStem src.name)).isSome then some (none, [])
  else proposeLoop sha fs src d fuel base_chars

/-- core.py, verify_suffix_matches_digest. -/
def verify_suffix_matches_digest (sfx : List Char) (digest : Bytes)
    (base_chars : Nat) : Bool :=
  if sfx.length < base_chars then false
  else decide (sfx = suffix_from_digest digest sfx.length)

theorem proposeLoop_rename_sound (sha : Bytes → Bytes) (fs : FS) (src : P)
    (d : Bytes) : ∀ fuel n dst sfx,
    proposeLoop sha fs src d fuel n = some (some dst, sfx) →
    ∃ m, n ≤ m ∧ sfx = suffix_from_digest d m ∧ dst = mkCand src d m ∧
      fsFind fs dst = none := by
  intro fuel
  induction fuel with
  | zero => intro n dst sfx h; simp [proposeLoop] at h
  | succ fuel ih =>
      intro n dst sfx h
      simp only [proposeLoop] at h
      by_cases h1 : fsFind fs (mkCand src d n) = none
      · rw [if_pos h1] at h
        have hinj := Option.some.inj h
        have hdst : some dst = some (mkCand src d n) := congrArg Prod.fst hinj.symm
        have hsfx : sfx = suffix_from_digest d n := congrArg Prod.snd hinj.symm
        refine ⟨n, Nat.le_refl _, hsfx, Option.some.inj hdst, ?_⟩
        rw [Option.some.inj hdst]
        exact h1
      · rw [if_neg h1] at h
        by_cases h2 : same_bytes sha fs src (mkCand src d n) = true
        · rw [if_pos h2] at h
          have := (Option.some.inj h)
          exact absurd (congrArg Prod.fst this) (by simp)
        · rw [if_neg h2] at h
          obtain ⟨m, hm, hrest⟩ := ih (n + 1) dst sfx h
          exact ⟨m, by omega, hrest⟩

theorem proposeLoop_dup (sha : Bytes → Bytes) (fs : FS) (src : P) (d : Bytes)
    (n fuel : Nat) (c : Bytes) (h1 : fsFind fs (mkCand src d n) = some c)
    (h2 : same_bytes sha fs src (mkCand src d n) = true) :
    proposeLoop sha fs src d (fuel + 1) n = some (none, []) := by
  simp only [proposeLoop]
  rw [if_neg (by simp [h1]), if_pos h2]

theorem proposeLoop_some_good (sha : Bytes → Bytes) (fs : FS) (src : P)
    (d : Bytes) : ∀ fuel n r, proposeLoop sha fs src d fuel n = some r →
    ∃ m, n ≤ m ∧ (fsFind fs (mkCand src d m) = none ∨
      same_bytes sha fs src (mkCand src d m) = true) := by
  intro fuel
  induction fuel with
  | zero => intro n r h; simp [proposeLoop] at h
  | succ fuel ih =>
      intro n r h
      simp only [proposeLoop] at h
      by_cases h1 : fsFind fs (mkCand src d n) = none
      · exact ⟨n, Nat.le_refl _, Or.inl h1⟩
      · rw [if_neg h1] at h
        by_cases h2 : same_bytes sha fs src (mkCand src d n) = true
        · exact ⟨n, Nat.le_refl _, Or.inr h2⟩
        · rw [if_neg h2] at h
          obtain ⟨m, hm, hgood⟩ := ih (n + 1) r h
          exact ⟨m, by omega, hgood⟩

theorem proposeLoop_term (sha : Bytes → Bytes) (fs : FS) (src : P)
    (d : Bytes) : ∀ k n,
    (fsFind fs (mkCand src d (n + k)) = none ∨
      same_bytes sha fs src (mkCand src d (n + k)) = true) →
    ∃ fuel r, proposeLoop sha fs src d fuel n = some r := by
  intro k
  induction k with
  | zero =>
      intro n hgood
      refine ⟨1, ?_⟩
      rcases hgood with hfree | hsame
      · exact ⟨(some (mkCand src d n), suffix_from_digest d n), by
          simp only [proposeLoop]; rw [if_pos (by simpa using hfree)]⟩
      · by_cases h1 : fsFind fs (mkCand src d n) = none
        · exact ⟨(some (mkCand src d n), suffix_from_digest d n), by
            simp only [proposeLoop]; rw [if_pos h1]⟩
        · exact ⟨(none, []), by
            simp only [proposeLoop]
            rw [if_neg h1, if_pos (by simpa using hsame)]⟩
  | succ k ih =>
      intro n hgood
      by_cases h1 : fsFind fs (mkCand src d n) = none
      · exact ⟨1, (some (mkCand src d n), suffix_from_digest d n), by
          simp only [proposeLoop]; rw [if_pos h1]⟩
      · by_cases h2 : same_bytes sha fs src (mkCand src d n) = true
        · exact ⟨1, (none, []), by
            simp only [proposeLoop]; rw [if_neg h1, if_pos h2]⟩
        · have hshift : n + (k + 1) = (n + 1) + k := by omega
          obtain ⟨fuel, r, hr⟩ := ih (n + 1) (by rw [← hshift]; exact hgood)
          exact ⟨fuel + 1, r, by
            simp only [proposeLoop]; rw [if_neg h1, if_neg h2]; exact hr⟩

/-! ## Strip mode: counter search and the per-file strip decision -/

/-- One counter candidate, dirpath / (stem_i.ext). -/
def mkCounterCand (dirpath stem ext : List Char) (i : Nat) : P :=
  ⟨dirpath, stem ++ '_' :: ((Nat.repr i).toList ++ ext)⟩

/-- The bounded linear probe of find_noncolliding_strip_dst: try the
counter value i, then i+1, and so on, k times in total. -/
def counterSearch (fs : FS) (dirpath stem ext : List Char) :
    Nat → Nat → Option P
  | 0, _ => none
  | k + 1, i =>
      if fsFind fs (mkCounterCand dirpath stem ext i) = none then
        some (mkCounterCand dirpath stem ext i)
      else counterSearch fs dirpath stem ext k (i + 1)

/-- core.py, find_noncolliding_strip_dst: probes counters 1 .. 9999999
(range(1, 10_000_000)) under the add-counter policy and raises on
exhaustion; any other policy yields no candidate. -/
def find_noncolliding_strip_dst (fs : FS) (dirpath stem ext : List Char)
    (policy : List Char) : Except (List Char) (Option P) :=
  if policy ≠ "add-counter".toList then Except.ok none
  else
    match counterSearch fs dirpath stem ext 9999999 1 with
    | some c => Except.ok (some c)
    | none =>
        Except.error "Could not find a free counter suffix (unexpected).".toList

/-- Per-file outcome of the strip branch of cli.py main. -/
inductive StripOutcome where
  | notTagged : StripOutcome
  | verifyFailed : StripOutcome
  | dupSkip : StripOutcome
  | conflictSkip : StripOutcome
  | renameTo : P → StripOutcome
  | searchFail : List Char → StripOutcome
deriving DecidableEq

/-- cli.py main, strip mode, lines 171-229: parse the stem; optionally
verify the tag against the freshly computed digest (bl3 of the content);
then resolve the stripped destination under the conflict policy. -/
def strip_step (bl3 sha : Bytes → Bytes) (fs : FS) (p : P) (verify : Bool)
    (chars : Nat) (conflict : List Char) : StripOutcome :=
  match parse_suffix (pyStem p.name) with
  | none => StripOutcome.notTagged
  | some (base_stem, sfx) =>
      if verify &&
          !(verify_suffix_matches_digest sfx (bl3 ((fsFind fs p).getD [])) chars) then
        StripOutcome.verifyFailed
      else
        let dst := withName p (base_stem ++ pySuffix p.name)
        if (fsFind fs dst).isSome then
          if same_bytes sha fs p dst then StripOutcome.dupSkip
          else if conflict = "keep-suffixed".toList then StripOutcome.conflictSkip
          else if conflict = "refuse".toList then StripOutcome.conflictSkip
          else
            match find_noncolliding_strip_dst fs p.dir base_stem (pySuffix p.name)
                conflict with
            | Except.ok none => StripOutcome.conflictSkip
            | Except.ok (some alt) => StripOutcome.renameTo alt
            | Except.error e => StripOutcome.searchFail e
        else StripOutcome.renameTo dst

theorem counterSearch_found (fs : FS) (dirpath stem ext : List Char) :
    ∀ k start i, start ≤ i → i < start + k →
    fsFind fs (mkCounterCand dirpath stem ext i) = none →
    (∀ j, start ≤ j → j < i → ¬ fsFind fs (mkCounterCand dirpath stem ext j) = none) →
    counterSearch fs dirpath stem ext k start
      = some (mkCounterCand dirpath stem ext i) := by
  intro k
  induction k with
  | zero => intro start i h1 h2 _ _; omega
  | succ k ih =>
      intro start i h1 h2 hfree hocc
      by_cases hs : fsFind fs (mkCounterCand dirpath stem ext start) = none
      · have : i = start := by
          by_contra hne
          exact hocc start (Nat.le_refl _) (by omega) hs
        subst this
        simp only [counterSearch]
        rw [if_pos hs]
      · have hlt : start < i := by
          rcases Nat.lt_or_ge start i with h | h
          · exact h
          · have : i = start := by omega
            subst this
            exact absurd hfree hs
        simp only [counterSearch]
        rw [if_neg hs]
        exact ih (start + 1) i (by omega) (by omega) hfree
          (fun j hj1 hj2 => hocc j (by omega) hj2)

theorem counterSearch_exhausted (fs : FS) (dirpath stem ext : List Char) :
    ∀ k start,
    (∀ j, start ≤ j → j < start + k → ¬ fsFind fs (mkCounterCand dirpath stem ext j) = none) →
    counterSearch fs dirpath stem ext k start = none := by
  intro k
  induction k with
  | zero => intro start _; rfl
  | succ k ih =>
      intro start hocc
      simp only [counterSearch]
      rw [if_neg (hocc start (Nat.le_refl _) (by omega))]
      exact ih (start + 1) (fun j hj1 hj2 => hocc j (by omega) (by omega))

/-! ## Shared concrete samples for witnesses and counterexamples -/

/-- The 32-byte all-zero digest; its base64url encoding is 43 letters A. -/
def dZ32 : Bytes := List.replicate 32 0

/-- The 32-byte all-0xFF digest; every encoded character is an underscore. -/
def dFF32 : Bytes := List.replicate 32 255

/-- A sample source file, a.x in the root directory. -/
def srcAX : P := ⟨[], "a.x".toList⟩

/-! ## Claims -/

/-- C10: the suffix encoder depends only on a digest prefix: two digests
that agree on their first ceil(3*n/4) bytes encode to the same tag at
length n; the rest of the digest has no influence. -/
theorem C10_suffix_prefix_dependence (d1 d2 : Bytes) (n : Nat)
    (h : d1.take ((3 * n + 3) / 4) = d2.take ((3 * n + 3) / 4)) :
    suffix_from_digest d1 n = suffix_from_digest d2 n := by
  unfold suffix_from_digest
  rw [h]

/-- C10 witness: two digests differing everywhere after the first five
bytes produce the same 6-character tag. -/
theorem C10_witness :
    suffix_from_digest (List.replicate 32 0) 6
      = suffix_from_digest (List.replicate 5 0 ++ List.replicate 27 7) 6 :=
  C10_suffix_prefix_dependence _ _ 6 (by decide)

/-- C5: verify_suffix_matches_digest returns true iff the tag is at least
min_chars long and equals the encoding of the digest at the tag's own
length; encode(d,6) of a 32-byte digest verifies at min length 6, and the
fixed tag abcdef fails whenever it differs from encode(d,6). -/
theorem C5_verify_contract :
    (∀ (tag : List Char) (d : Bytes) (m : Nat),
      verify_suffix_matches_digest tag d m = true ↔
        (m ≤ tag.length ∧ tag = suffix_from_digest d tag.length)) ∧
    (∀ d : Bytes, d.length = 32 →
      verify_suffix_matches_digest (suffix_from_digest d 6) d 6 = true) ∧
    (∀ d : Bytes, d.length = 32 →
      ¬ "abcdef".toList = suffix_from_digest d 6 →
      verify_suffix_matches_digest "abcdef".toList d 6 = false) := by
  refine ⟨?_, ?_, ?_⟩
  · intro tag d m
    unfold verify_suffix_matches_digest
    by_cases h : tag.length < m
    · rw [if_pos h]
      constructor
      · intro hf; exact absurd hf (by simp)
      · rintro ⟨hm, _⟩; omega
    · rw [if_neg h, decide_eq_true_eq]
      constructor
      · intro he; exact ⟨by omega, he⟩
      · rintro ⟨_, he⟩; exact he
  · intro d hd
    unfold verify_suffix_matches_digest
    have hlen : (suffix_from_digest d 6).length = 6 :=
      suffix_from_digest_length d 6 (by omega)
    rw [hlen, if_neg (by omega)]
    exact decide_eq_true rfl
  · intro d hd hne
    unfold verify_suffix_matches_digest
    have h6 : ("abcdef".toList : List Char).length = 6 := by decide
    rw [h6, if_neg (by omega)]
    exact decide_eq_false hne

/-- C5 witness: for the all-zero 32-byte digest, its own 6-character tag
verifies and the tag abcdef does not. -/
theorem C5_verify_witness :
    verify_suffix_matches_digest (suffix_from_digest dZ32 6) dZ32 6 = true ∧
    verify_suffix_matches_digest "abcdef".toList dZ32 6 = false :=
  ⟨C5_verify_contract.2.1 dZ32 (by decide),
   C5_verify_contract.2.2 dZ32 (by decide) (by decide)⟩

/-- C3 counterexample: for the 32-byte all-zero digest and requested
length 44 the encoder yields only 43 characters, refuting the claim that
the result has exactly n_chars characters for every digest and length. -/
theorem C3_length_counterexample :
    ¬ (suffix_from_digest (List.replicate 32 0) 44).length = 44 := by decide

/-- C3 amended: the encoder equals the spec algorithm (first ceil(3*n/4)
digest bytes, base64url without padding, truncated to n chars) and its
result has exactly n_chars characters whenever the digest holds at least
ceil(3*n/4) bytes; for a 32-byte digest the length is min n_chars 43. -/
theorem C3_encoder_contract (d : Bytes) (n : Nat) :
    suffix_from_digest d n = suffix_spec d n ∧
    ((3 * n + 3) / 4 ≤ d.length → (suffix_from_digest d n).length = n) ∧
    (d.length = 32 → (suffix_from_digest d n).length = min n 43) := by
  refine ⟨?_, suffix_from_digest_length d n, suffix_from_digest_length32 d n⟩
  unfold suffix_spec
  have hb : ceil_div (3 * n) 4 = (3 * n + 3) / 4 := by unfold ceil_div; omega
  rw [hb]
  rfl

/-- C3 witness: at the default length 6 on a 32-byte digest the tag has
exactly 6 characters. -/
theorem C3_encoder_witness : (suffix_from_digest dZ32 6).length = 6 :=
  (C3_encoder_contract dZ32 6).2.1 (by decide)

/-- C2: the append resolver never overwrites: every proposed rename
destination is absent from the filesystem state, and any loop step whose
candidate exists with byte-identical content (sizes equal and secondary
hashes equal, per same_bytes) returns the duplicate skip. -/
theorem C2_no_overwrite :
    (∀ (sha : Bytes → Bytes) (fs : FS) (src : P) (d : Bytes)
        (base fuel : Nat) (dst : P) (sfx : List Char),
      propose_dst_apply sha fs src d base fuel = some (some dst, sfx) →
      fsFind fs dst = none) ∧
    (∀ (sha : Bytes → Bytes) (fs : FS) (src : P) (d : Bytes) (n fuel : Nat)
        (c : Bytes),
      fsFind fs (mkCand src d n) = some c →
      same_bytes sha fs src (mkCand src d n) = true →
      proposeLoop sha fs src d (fuel + 1) n = some (none, [])) := by
  constructor
  · intro sha fs src d base fuel dst sfx h
    unfold propose_dst_apply at h
    by_cases hre : (SUFFIX_RE_match (pyStem src.name)).isSome = true
    · rw [if_pos hre] at h
      exact absurd (congrArg Prod.fst (Option.some.inj h)) (by simp)
    · rw [if_neg hre] at h
      obtain ⟨m, _, _, _, hfree⟩ :=
        proposeLoop_rename_sound sha fs src d fuel base dst sfx h
      exact hfree
  · exact proposeLoop_dup

/-- C2 witness: on a one-file state the proposed destination is free, and
a loop step whose candidate holds identical bytes returns the duplicate
skip. -/
theorem C2_no_overwrite_witness :
    fsFind [(srcAX, [1])] (mkCand srcAX dZ32 6) = none ∧
    proposeLoop id [(srcAX, [1]), (mkCand srcAX dZ32 6, [1])] srcAX dZ32 1 6
      = some (none, []) :=
  ⟨C2_no_overwrite.1 id [(srcAX, [1])] srcAX dZ32 6 1 (mkCand srcAX dZ32 6)
      (suffix_from_digest dZ32 6) (by decide),
   C2_no_overwrite.2 id [(srcAX, [1]), (mkCand srcAX dZ32 6, [1])] srcAX dZ32 6 0
      [1] (by decide) (by decide)⟩

/-- C8: find_noncolliding_strip_dst yields no candidate under the refuse
and keep-suffixed policies; under add-counter it returns the first free
counter name stem_i.ext in increasing order of i, and signals the
exhaustion error when every probed counter 1 .. 9999999 is occupied. -/
theorem C8_counter_search (fs : FS) (dirpath stem ext : List Char) :
    (find_noncolliding_strip_dst fs dirpath stem ext "refuse".toList
      = Except.ok none) ∧
    (find_noncolliding_strip_dst fs dirpath stem ext "keep-suffixed".toList
      = Except.ok none) ∧
    (∀ i, 1 ≤ i → i < 10000000 →
      fsFind fs (mkCounterCand dirpath stem ext i) = none →
      (∀ j, 1 ≤ j → j < i →
        ¬ fsFind fs (mkCounterCand dirpath stem ext j) = none) →
      find_noncolliding_strip_dst fs dirpath stem ext "add-counter".toList
        = Except.ok (some (mkCounterCand dirpath stem ext i))) ∧
    ((∀ j, 1 ≤ j → j < 10000000 →
        ¬ fsFind fs (mkCounterCand dirpath stem ext j) = none) →
      find_noncolliding_strip_dst fs dirpath stem ext "add-counter".toList
        = Except.error "Could not find a free counter suffix (unexpected).".toList) := by
  refine ⟨?_, ?_, ?_, ?_⟩
  · unfold find_noncolliding_strip_dst
    rw [if_pos (by decide)]
  · unfold find_noncolliding_strip_dst
    rw [if_pos (by decide)]
  · intro i h1 h2 hfree hocc
    have hcs := counterSearch_found fs dirpath stem ext 9999999 1 i h1
      (by omega) hfree hocc
    unfold find_noncolliding_strip_dst
    rw [if_neg (by decide), hcs]
  · intro hocc
    have hcs := counterSearch_exhausted fs dirpath stem ext 9999999 1
      (fun j hj1 hj2 => hocc j hj1 (by omega))
    unfold find_noncolliding_strip_dst
    rw [if_neg (by decide), hcs]

/-- C8 witness: on an empty state the first counter candidate stem_1.ext
is returned, and the refuse policy yields no candidate. -/
theorem C8_counter_witness :
    find_noncolliding_strip_dst [] [] "s".toList ".x".toList
        "add-counter".toList
      = Except.ok (some (mkCounterCand [] "s".toList ".x".toList 1)) ∧
    find_noncolliding_strip_dst [] [] "s".toList ".x".toList "refuse".toList
      = Except.ok none :=
  ⟨(C8_counter_search [] [] "s".toList ".x".toList).2.2.1 1 (by omega)
      (by omega) (by decide) (fun j hj1 hj2 => by omega),
   (C8_counter_search [] [] "s".toList ".x".toList).1⟩

/-- The blake3 digest of the five bytes of hello, from the repository
test suite (hex ea8f163d...). -/
def helloDigest : Bytes :=
  [0xea, 0x8f, 0x16, 0x3d, 0xb3, 0x86, 0x82, 0x92, 0x5e, 0x44, 0x91, 0xc5,
   0xe5, 0x8d, 0x4b, 0xb3, 0x50, 0x6e, 0xf8, 0xc1, 0x4e, 0xb7, 0x8a, 0x86,
   0xe9, 0x08, 0xc5, 0x62, 0x4a, 0x67, 0x20, 0x0f]

/-- The sample file of the strip-verify-fail scenario. -/
def imgFile : P := ⟨[], "img__6o8WPa.heic".toList⟩

/-- C9: in strip mode with verify enabled, a file whose parsed tag fails
verify_suffix_matches_digest against the freshly recomputed digest is
skipped with the VerifyFailed outcome (the branch cli.py counts in
skipped_verify_fail) and no rename is proposed. -/
theorem C9_strip_verify_fail (bl3 sha : Bytes → Bytes) (fs : FS) (p : P)
    (chars : Nat) (conflict : List Char) (bs tag : List Char)
    (hparse : parse_suffix (pyStem p.name) = some (bs, tag))
    (hver : verify_suffix_matches_digest tag (bl3 ((fsFind fs p).getD []))
      chars = false) :
    strip_step bl3 sha fs p true chars conflict = StripOutcome.verifyFailed := by
  simp only [strip_step, hparse]
  rw [hver]
  rfl

/-- C9 witness: img__6o8WPa.heic with content hello is skipped, because
the hello digest encodes to 6o8WPb at length 6, not 6o8WPa. -/
theorem C9_strip_verify_witness :
    suffix_from_digest helloDigest 6 = "6o8WPb".toList ∧
    strip_step (fun _ => helloDigest) id
        [(imgFile, [104, 101, 108, 108, 111])] imgFile true 6 "refuse".toList
      = StripOutcome.verifyFailed :=
  ⟨by decide,
   C9_strip_verify_fail (fun _ => helloDigest) id
      [(imgFile, [104, 101, 108, 108, 111])] imgFile 6 "refuse".toList
      "img".toList "6o8WPa".toList (by decide) (by decide)⟩

theorem mem_pyStem_subset (name : List Char) (c : Char) (h : c ∈ pyStem name) :
    c ∈ name := by
  unfold pyStem at h
  cases hidx : lastDotIdx name with
  | none => simp only [hidx] at h; exact h
  | some i =>
      simp only [hidx] at h
      by_cases hc : 0 < i ∧ i + 1 < name.length
      · rw [if_pos hc] at h
        exact List.take_subset _ _ h
      · rw [if_neg hc] at h
        exact h

theorem mem_pySuffix_subset (name : List Char) (c : Char)
    (h : c ∈ pySuffix name) : c ∈ name := by
  unfold pySuffix at h
  cases hidx : lastDotIdx name with
  | none => simp only [hidx] at h; exact absurd h (List.not_mem_nil c)
  | some i =>
      simp only [hidx] at h
      by_cases hc : 0 < i ∧ i + 1 < name.length
      · rw [if_pos hc] at h
        exact List.drop_subset _ _ h
      · rw [if_neg hc] at h
        exact absurd h (List.not_mem_nil c)

/-- C7 amended: the fuel-indexed suffix extension loop reaches a result
for some fuel if and only if some length n at or above the starting
length has a candidate that is absent or byte-identical to the source;
when every candidate from the start upward is occupied by different
content, the loop never returns. -/
theorem C7_loop_termination_iff (sha : Bytes → Bytes) (fs : FS) (src : P)
    (d : Bytes) (base : Nat) :
    (∃ fuel r, proposeLoop sha fs src d fuel base = some r) ↔
    (∃ n, base ≤ n ∧ (fsFind fs (mkCand src d n) = none ∨
      same_bytes sha fs src (mkCand src d n) = true)) := by
  constructor
  · rintro ⟨fuel, r, hr⟩
    exact proposeLoop_some_good sha fs src d fuel base r hr
  · rintro ⟨n, hn, hgood⟩
    refine proposeLoop_term sha fs src d (n - base) base ?_
    rw [show base + (n - base) = n by omega]
    exact hgood

/-- C7 witness: on the empty state the loop terminates from base length 6
at the very first candidate. -/
theorem C7_termination_witness :
    ∃ fuel r, proposeLoop id [] srcAX dZ32 fuel 6 = some r :=
  (C7_loop_termination_iff id [] srcAX dZ32 6).mpr
    ⟨6, Nat.le_refl 6, Or.inl (by decide)⟩

/-- C7 counterexample: a finite two-file state on which the loop never
returns, refuting universal termination: the source a.x plus the single
candidate at tag length 43 occupied by different content; for a 32-byte
digest every length at or beyond 43 produces that same candidate, so
propose_dst_apply yields no result at any fuel. -/
theorem C7_nontermination_counterexample :
    ¬ ∃ fuel r, propose_dst_apply id
        [(srcAX, [0]), (mkCand srcAX dZ32 43, [0, 0])] srcAX dZ32 43 fuel
      = some r := by
  rintro ⟨fuel, r, hr⟩
  have hcand : ∀ n, 43 ≤ n → mkCand srcAX dZ32 n = mkCand srcAX dZ32 43 := by
    intro n hn
    unfold mkCand
    rw [suffix_from_digest_stable dZ32 n (by decide) hn,
      suffix_from_digest_stable dZ32 43 (by decide) (by omega)]
  have hbad : ∀ n, 43 ≤ n →
      ¬ fsFind [(srcAX, [0]), (mkCand srcAX dZ32 43, [0, 0])]
          (mkCand srcAX dZ32 n) = none ∧
      same_bytes id [(srcAX, [0]), (mkCand srcAX dZ32 43, [0, 0])] srcAX
          (mkCand srcAX dZ32 n) = false := by
    intro n hn
    rw [hcand n hn]
    exact ⟨by decide, by decide⟩
  have hloop : ∀ fuel2 n, 43 ≤ n →
      proposeLoop id [(srcAX, [0]), (mkCand srcAX dZ32 43, [0, 0])] srcAX dZ32
        fuel2 n = none := by
    intro fuel2
    induction fuel2 with
    | zero => intro n _; rfl
    | succ fuel2 ih =>
        intro n hn
        obtain ⟨h1, h2⟩ := hbad n hn
        simp only [proposeLoop]
        rw [if_neg h1, if_neg (by simp [h2]), ih (n + 1) (by omega)]
  unfold propose_dst_apply at hr
  rw [if_neg (by decide)] at hr
  rw [hloop fuel 43 (by omega)] at hr
  exact Option.noConfusion hr

/-- C4 counterexample: with base stem a and the all-0xFF digest, whose
6-character tag is six underscores, the greedy parse returns the pair
comprising a__ and four underscores, not the original pair, refuting the
universal round-trip. -/
theorem C4_roundtrip_counterexample :
    ¬ parse_suffix ("a".toList ++ '_' :: '_' :: suffix_from_digest dFF32 6)
      = some ("a".toList, suffix_from_digest dFF32 6) := by decide

/-- C4 amended: the round-trip parse of base_stem + two underscores +
encode(d,6) returns exactly that pair for every base stem without a
newline and every 32-byte digest whose 6-character tag is safe per
tag_safe (it does not start with an underscore and has no two adjacent
underscores). -/
theorem C4_parse_roundtrip (st : List Char) (d : Bytes)
    (hnl : ¬ '\n' ∈ st) (hd : d.length = 32)
    (hsafe : tag_safe (suffix_from_digest d 6)) :
    parse_suffix (st ++ '_' :: '_' :: suffix_from_digest d 6)
      = some (st, suffix_from_digest d 6) :=
  parse_suffix_roundtrip st _ hnl (suffix_from_digest_all_tag d 6)
    (by rw [suffix_from_digest_length d 6 (by omega)]; omega) hsafe

/-- C4 witness: the round-trip at base stem photo with the all-zero
32-byte digest. -/
theorem C4_parse_roundtrip_witness :
    parse_suffix ("photo".toList ++ '_' :: '_' :: suffix_from_digest dZ32 6)
      = some ("photo".toList, suffix_from_digest dZ32 6) :=
  C4_parse_roundtrip "photo".toList dZ32 (by decide) (by decide) (by decide)

theorem propose_already_tagged (sha : Bytes → Bytes) (fs : FS) (src : P)
    (d : Bytes) (base fuel : Nat) (st0 tag : List Char)
    (hdec : pyStem src.name = st0 ++ '_' :: '_' :: tag)
    (hnl : ¬ '\n' ∈ pyStem src.name)
    (htag : tag.all isTagChar = true) (hlen : 4 ≤ tag.length) :
    propose_dst_apply sha fs src d base fuel = some (none, []) := by
  unfold propose_dst_apply
  rw [if_pos (SUFFIX_RE_match_isSome_of _ st0 tag hdec hnl htag hlen)]

/-- C1 amended: for a source whose name holds no newline and does not end
in a dot, with base_chars at least 4 and a 32-byte digest: a stem that
already ends in two underscores plus at least four tag characters is
skipped as AlreadyTagged, and any rename the resolver proposes carries
the tag encode(digest, m) for some m at or above base_chars and produces
a file that every later append run skips as AlreadyTagged. -/
theorem C1_append_idempotent (sha : Bytes → Bytes) (fs : FS) (src : P)
    (d : Bytes) (base fuel : Nat)
    (hnl : ¬ '\n' ∈ src.name) (hdot : ¬ src.name.getLast? = some '.')
    (hbase : 4 ≤ base) (hd : d.length = 32) :
    ((∃ st0 tag, pyStem src.name = st0 ++ '_' :: '_' :: tag ∧
        tag.all isTagChar = true ∧ 4 ≤ tag.length) →
      propose_dst_apply sha fs src d base fuel = some (none, [])) ∧
    (∀ dst sfx,
      propose_dst_apply sha fs src d base fuel = some (some dst, sfx) →
      (∃ m, base ≤ m ∧ sfx = suffix_from_digest d m ∧ dst = mkCand src d m) ∧
      ∀ (sha2 : Bytes → Bytes) (fs2 : FS) (d2 : Bytes) (base2 fuel2 : Nat),
        propose_dst_apply sha2 fs2 dst d2 base2 fuel2 = some (none, [])) := by
  have hnl_stem : ¬ '\n' ∈ pyStem src.name :=
    fun hm => hnl (mem_pyStem_subset _ _ hm)
  constructor
  · rintro ⟨st0, tag, hdec, htag, hlen⟩
    exact propose_already_tagged sha fs src d base fuel st0 tag hdec hnl_stem
      htag hlen
  · intro dst sfx h
    unfold propose_dst_apply at h
    by_cases hre : (SUFFIX_RE_match (pyStem src.name)).isSome = true
    · rw [if_pos hre] at h
      exact absurd (congrArg Prod.fst (Option.some.inj h)) (by simp)
    · rw [if_neg hre] at h
      obtain ⟨m, hm, hsfx, hdst, _⟩ :=
        proposeLoop_rename_sound sha fs src d fuel base dst sfx h
      refine ⟨⟨m, hm, hsfx, hdst⟩, ?_⟩
      intro sha2 fs2 d2 base2 fuel2
      have hname : dst.name
          = pyStem src.name ++ '_' :: '_' ::
            (suffix_from_digest d m ++ pySuffix src.name) := by
        rw [hdst]; rfl
      have hstem2 : pyStem dst.name
          = pyStem src.name ++ '_' :: '_' :: suffix_from_digest d m := by
        rw [hname]
        exact pyStem_recompose src.name (suffix_from_digest d m)
          (suffix_from_digest_all_tag d m) hdot
      have hlen2 : 4 ≤ (suffix_from_digest d m).length := by
        rw [suffix_from_digest_length32 d m hd]
        omega
      have hnl2 : ¬ '\n' ∈ pyStem dst.name := by
        rw [hstem2]
        intro hmem
        rcases List.mem_append.mp hmem with hh | hh
        · exact hnl_stem hh
        · simp only [List.mem_cons] at hh
          rcases hh with hh | hh | hh
          · exact absurd hh (by decide)
          · exact absurd hh (by decide)
          · exact isTagChar_ne_nl _
              (List.all_eq_true.mp (suffix_from_digest_all_tag d m) _ hh) rfl
      exact propose_already_tagged sha2 fs2 dst d2 base2 fuel2
        (pyStem src.name) (suffix_from_digest d m) hstem2 hnl2
        (suffix_from_digest_all_tag d m) hlen2

/-- C1 counterexample: the file with stem a, newline, b__cdef ends in two
underscores plus four tag characters, yet propose_dst_apply proposes a
rename instead of the AlreadyTagged skip, because the regex dot does not
match the newline: appending is not idempotent on this name. -/
theorem C1_newline_counterexample :
    (∃ st0 tag,
      pyStem (("a\nb__cdef.x".toList : List Char)) = st0 ++ '_' :: '_' :: tag ∧
      tag.all isTagChar = true ∧ 4 ≤ tag.length) ∧
    ¬ propose_dst_apply id [] ⟨[], "a\nb__cdef.x".toList⟩ dZ32 6 1
      = some (none, []) := by
  constructor
  · exact ⟨"a\nb".toList, "cdef".toList, by decide, by decide, by decide⟩
  · decide

/-- C1 witness: an already-tagged file is skipped, and the output of a
first append run on a.x is skipped as AlreadyTagged by a second run. -/
theorem C1_append_idempotent_witness :
    propose_dst_apply id [] ⟨[], "photo__abcdef.jpg".toList⟩ dZ32 6 1
      = some (none, []) ∧
    propose_dst_apply id [] (mkCand srcAX dZ32 6) dZ32 6 1
      = some (none, []) :=
  ⟨(C1_append_idempotent id [] ⟨[], "photo__abcdef.jpg".toList⟩ dZ32 6 1
      (by decide) (by decide) (by omega) (by decide)).1
      ⟨"photo".toList, "abcdef".toList, by decide, by decide, by decide⟩,
   ((C1_append_idempotent id [] srcAX dZ32 6 1 (by decide) (by decide)
      (by omega) (by decide)).2 (mkCand srcAX dZ32 6)
      (suffix_from_digest dZ32 6) (by decide)).2 id [] dZ32 6 1⟩

/-- C6 amended: when the 6-character candidate exists with content that
differs from the source, any rename the resolver proposes carries a tag
of length at least 7 and a filename distinct from the occupied candidate;
and each of the two tagged names parses back to the shared base stem with
its own tag, provided that tag is safe per tag_safe (no leading
underscore, no two adjacent underscores) and the source name holds no
newline and does not end in a dot. -/
theorem C6_collision_extension (sha : Bytes → Bytes) (fs : FS) (src : P)
    (d : Bytes) (fuel : Nat) (cb : Bytes) (hd : d.length = 32)
    (hnl : ¬ '\n' ∈ src.name) (hdot : ¬ src.name.getLast? = some '.')
    (hocc : fsFind fs (mkCand src d 6) = some cb)
    (_hdiff : same_bytes sha fs src (mkCand src d 6) = false) :
    ∀ dst sfx, propose_dst_apply sha fs src d 6 fuel = some (some dst, sfx) →
      7 ≤ sfx.length ∧
      ¬ dst.name = (mkCand src d 6).name ∧
      (tag_safe sfx →
        parse_suffix (pyStem dst.name) = some (pyStem src.name, sfx)) ∧
      (tag_safe (suffix_from_digest d 6) →
        parse_suffix (pyStem (mkCand src d 6).name)
          = some (pyStem src.name, suffix_from_digest d 6)) := by
  have hnl_stem : ¬ '\n' ∈ pyStem src.name :=
    fun hm => hnl (mem_pyStem_subset _ _ hm)
  intro dst sfx h
  unfold propose_dst_apply at h
  by_cases hre : (SUFFIX_RE_match (pyStem src.name)).isSome = true
  · rw [if_pos hre] at h
    exact absurd (congrArg Prod.fst (Option.some.inj h)) (by simp)
  rw [if_neg hre] at h
  obtain ⟨m, hm, hsfx, hdst, hfree⟩ :=
    proposeLoop_rename_sound sha fs src d fuel 6 dst sfx h
  have hm7 : 7 ≤ m := by
    rcases Nat.lt_or_ge m 7 with hlt | hge
    · have : m = 6 := by omega
      subst this
      rw [hdst] at hfree
      rw [hfree] at hocc
      exact absurd hocc (by simp)
    · exact hge
  have hlen7 : 7 ≤ sfx.length := by
    rw [hsfx, suffix_from_digest_length32 d m hd]
    omega
  have hlen6 : (suffix_from_digest d 6).length = 6 :=
    suffix_from_digest_length d 6 (by omega)
  refine ⟨hlen7, ?_, ?_, ?_⟩
  · intro heq
    have hlens := congrArg List.length heq
    rw [hdst] at hlens
    simp only [mkCand, withName, List.length_append, List.length_cons,
      hlen6] at hlens
    rw [suffix_from_digest_length32 d m hd] at hlens
    omega
  · intro hsafe
    have hname : dst.name
        = pyStem src.name ++ '_' :: '_' ::
          (suffix_from_digest d m ++ pySuffix src.name) := by
      rw [hdst]; rfl
    have hstem2 : pyStem dst.name
        = pyStem src.name ++ '_' :: '_' :: suffix_from_digest d m := by
      rw [hname]
      exact pyStem_recompose src.name (suffix_from_digest d m)
        (suffix_from_digest_all_tag d m) hdot
    rw [hstem2, hsfx]
    exact parse_suffix_roundtrip _ _ hnl_stem (suffix_from_digest_all_tag d m)
      (by rw [suffix_from_digest_length32 d m hd]; omega)
      (by rw [hsfx] at hsafe; exact hsafe)
  · intro hsafe
    have hstem6 : pyStem (mkCand src d 6).name
        = pyStem src.name ++ '_' :: '_' :: suffix_from_digest d 6 :=
      pyStem_recompose src.name (suffix_from_digest d 6)
        (suffix_from_digest_all_tag d 6) hdot
    rw [hstem6]
    exact parse_suffix_roundtrip _ _ hnl_stem (suffix_from_digest_all_tag d 6)
      (by rw [hlen6]; omega) hsafe

/-- C6 counterexample: with the all-0xFF digest every tag character is an
underscore; the 6-character candidate is occupied by different content
and the resolver extends to a 7-underscore tag, but the extended name
does not parse back to the pair of the base stem and that tag, refuting
the unconditional parse-back clause. -/
theorem C6_parse_back_counterexample :
    propose_dst_apply id [(srcAX, [0]), (mkCand srcAX dFF32 6, [0, 0])]
        srcAX dFF32 6 2
      = some (some (mkCand srcAX dFF32 7), suffix_from_digest dFF32 7) ∧
    fsFind [(srcAX, [0]), (mkCand srcAX dFF32 6, [0, 0])]
        (mkCand srcAX dFF32 6) = some [0, 0] ∧
    same_bytes id [(srcAX, [0]), (mkCand srcAX dFF32 6, [0, 0])] srcAX
        (mkCand srcAX dFF32 6) = false ∧
    ¬ parse_suffix (pyStem (mkCand srcAX dFF32 7).name)
      = some (pyStem srcAX.name, suffix_from_digest dFF32 7) := by decide

/-- C6 witness: with the all-zero digest the 6-character candidate is
occupied by different content; the proposed tag has 7 characters and the
new name parses back to the base stem and the extended tag. -/
theorem C6_collision_extension_witness :
    7 ≤ (suffix_from_digest dZ32 7).length ∧
    parse_suffix (pyStem (mkCand srcAX dZ32 7).name)
      = some (pyStem srcAX.name, suffix_from_digest dZ32 7) := by
  have happ := C6_collision_extension id
    [(srcAX, [0]), (mkCand srcAX dZ32 6, [0, 0])] srcAX dZ32 2 [0, 0]
    (by decide) (by decide) (by decide) (by decide) (by decide)
    (mkCand srcAX dZ32 7) (suffix_from_digest dZ32 7) (by decide)
  exact ⟨happ.1, happ.2.2.1 (by decide)⟩
